import Mathlib

set_option maxHeartbeats 1000000

/-! Shallow embedding of the megamerge hex-2048 game core
(src/core/hexUtils.ts, src/core/constants.ts, the merge logic module, and
src/core/game.ts), together with theorems checking the specification's claims. -/

/-- Axial hex coordinate `(q, r)`, as in hexUtils.ts / types.ts. -/
structure HexCoord where
  q : ℤ
  r : ℤ
deriving DecidableEq, Repr

/-- addCoords from hexUtils.ts. -/
def addCoords (a b : HexCoord) : HexCoord := ⟨a.q + b.q, a.r + b.r⟩

/-- getS from hexUtils.ts: the implicit cube coordinate `s = -q - r`. -/
def getS (c : HexCoord) : ℤ := -c.q - c.r

/-- coordsEqual from hexUtils.ts. -/
def coordsEqual (a b : HexCoord) : Bool := decide (a.q = b.q ∧ a.r = b.r)

/-- DIRECTION_VECTORS from hexUtils.ts (order: NE, E, SE, SW, W, NW). -/
def DIRECTION_VECTORS : List HexCoord :=
  [⟨-1, 1⟩, ⟨-1, 0⟩, ⟨0, -1⟩, ⟨1, -1⟩, ⟨1, 0⟩, ⟨0, 1⟩]

/-- The Direction enum (0..5) from types.ts. -/
abbrev Direction := Fin 6

/-- `DIRECTION_VECTORS[d]`; the index is always in range in the source. -/
def dirVec (d : Direction) : HexCoord := DIRECTION_VECTORS.getD d.val ⟨0, 0⟩

/-- GRID_SIZE from constants.ts. -/
def GRID_SIZE : ℕ := 5

/-- `radius = Math.floor(GRID_SIZE / 2)` as used in hexUtils.ts. -/
def gridRadius : ℤ := (GRID_SIZE / 2 : ℕ)

/-- getAllGridCoords from hexUtils.ts: q from -radius to radius, and for each q,
r from `max(-radius, -q-radius)` to `min(radius, -q+radius)`. -/
def getAllGridCoords : List HexCoord :=
  (((List.range (2 * (GRID_SIZE / 2) + 1)).map (fun i => (i : ℤ) - gridRadius)).map (fun q =>
    let r1 := max (-gridRadius) (-q - gridRadius)
    let r2 := min gridRadius (-q + gridRadius)
    (List.range (r2 + 1 - r1).toNat).map (fun j => (⟨q, r1 + j⟩ : HexCoord)))).flatten

/-- getNeighbors from hexUtils.ts: the six direction vectors added to `c`. -/
def getNeighbors (c : HexCoord) : List HexCoord := DIRECTION_VECTORS.map (addCoords c)

/-- isValidCoord from hexUtils.ts. -/
def isValidCoord (c : HexCoord) : Bool :=
  decide (|c.q| ≤ gridRadius ∧ |c.r| ≤ gridRadius ∧ |getS c| ≤ gridRadius)

/-- The while loop inside getLine. The source walks while the next cell is valid;
every straight run of valid cells in this radius-2 grid has at most 5 cells, so
fuel 8 is never exhausted and the walk always stops at the first invalid cell. -/
def getLineGo (dv : HexCoord) : ℕ → HexCoord → List HexCoord
  | 0, _ => []
  | n + 1, cur =>
    let next := addCoords cur dv
    if isValidCoord next then next :: getLineGo dv n next else []

/-- getLine from hexUtils.ts. -/
def getLine (start : HexCoord) (d : Direction) : List HexCoord :=
  start :: getLineGo (dirVec d) 8 start

/-- The backward walk inside getAllLines finding the start of a line (while the
previous cell is valid, step backward); fuel 8 is never exhausted, as above. -/
def lineStartGo (ov : HexCoord) : ℕ → HexCoord → HexCoord
  | 0, cur => cur
  | n + 1, cur =>
    let prev := addCoords cur ov
    if isValidCoord prev then lineStartGo ov n prev else cur

/-- The loop of getAllLines over all grid coordinates, carrying the `used` set
(modelled as a list of coordinates; the source keys the set by the string
`"q,r"`, which identifies coordinates exactly). -/
def getAllLinesGo (d : Direction) : List HexCoord → List HexCoord → List (List HexCoord)
  | [], _ => []
  | c :: rest, used =>
    if c ∈ used then getAllLinesGo d rest used
    else
      let start := lineStartGo (dirVec (d + 3)) 8 c
      let line := getLine start d
      line :: getAllLinesGo d rest (used ++ line)

/-- getAllLines from hexUtils.ts. -/
def getAllLines (d : Direction) : List (List HexCoord) := getAllLinesGo d getAllGridCoords []

/-- Tile from types.ts.  Ids are opaque unique strings in the source, modelled
as naturals.  `isNew`/`isMerged` are the transient display flags. -/
structure Tile where
  id : ℕ
  value : ℕ
  position : HexCoord
  isNew : Bool
  isMerged : Bool
deriving DecidableEq, Repr

/-- TILE_VALUES from constants.ts. -/
def TILE_VALUES : List ℕ :=
  [2, 6, 18, 54, 162, 486, 1458, 4374, 13122, 39366, 118098, 354294, 1062882]

/-- getNextValue from constants.ts: the entry after `v` in the progression, or
none when `v` is absent or already the last entry. -/
def getNextValue (v : ℕ) : Option ℕ :=
  match TILE_VALUES.findIdx? (fun x => x == v) with
  | none => none
  | some i => TILE_VALUES.get? (i + 1)

/-- getTileAtCoord from the merge logic module. -/
def getTileAtCoord (grid : List Tile) (c : HexCoord) : Option Tile :=
  grid.find? (fun t => coordsEqual t.position c)

/-- The double loop in findTripletsAt: the first pair (in i &lt; j order) of
matching neighbors that are adjacent to each other. -/
def firstAdjPair : List Tile → Option (Tile × Tile)
  | [] => none
  | a :: rest =>
    match rest.find? (fun b => (getNeighbors a.position).any (fun n => coordsEqual n b.position)) with
    | some b => some (a, b)
    | none => firstAdjPair rest

/-- findTripletsAt from the merge logic module. -/
def findTripletsAt (grid : List Tile) (coord : HexCoord) : List Tile :=
  match getTileAtCoord grid coord with
  | none => []
  | some centerTile =>
    let matchingNeighbors :=
      ((getNeighbors coord).filterMap (fun p => getTileAtCoord grid p)).filter
        (fun t => t.value == centerTile.value)
    if matchingNeighbors.length < 2 then []
    else
      match firstAdjPair matchingNeighbors with
      | some (a, b) => [centerTile, a, b]
      | none => []

/-- The scan loop of findAllTriplets, carrying the set of claimed coordinates
(a list; the source uses a string-keyed set, which identifies coordinates
exactly).  The center key is claimed before the probe; on success all three
participant positions are claimed and the triplet is recorded. -/
def findAllTripletsGo (grid : List Tile) : List Tile → List HexCoord → List (List Tile)
  | [], _ => []
  | t :: rest, checked =>
    if t.position ∈ checked then findAllTripletsGo grid rest checked
    else
      let triplet := findTripletsAt grid t.position
      if triplet.length = 3 then
        triplet :: findAllTripletsGo grid rest (triplet.map Tile.position ++ t.position :: checked)
      else findAllTripletsGo grid rest (t.position :: checked)

/-- findAllTriplets from the merge logic module. -/
def findAllTriplets (grid : List Tile) : List (List Tile) := findAllTripletsGo grid grid []

/-- canMergeAnywhere from the merge logic module. -/
def canMergeAnywhere (grid : List Tile) : Bool := decide (0 < (findAllTriplets grid).length)

/-- JavaScript `Math.round(n / 3)` for an integer `n`: `floor(n/3 + 1/2)`;
no tie (half-integer) can occur at a third, so float rounding is exact. -/
def round3 (n : ℤ) : ℤ := Int.fdiv (2 * n + 3) 6

/-- The barycenter computation of mergeTriplet: componentwise rounded average. -/
def roundCentroid (p1 p2 p3 : HexCoord) : HexCoord :=
  ⟨round3 (p1.q + p2.q + p3.q), round3 (p1.r + p2.r + p3.r)⟩

/-- Fresh tile id.  The source draws a random string id at each creation; the
spec guarantees ids are unique and never reused, modelled by a deterministic
fresh supply (one more than the largest id present). -/
def freshId (grid : List Tile) : ℕ := grid.foldl (fun m t => max m t.id) 0 + 1

/-- mergeTriplet from the merge logic module. -/
def mergeTriplet (grid : List Tile) (triplet : List Tile) : List Tile × ℕ :=
  match triplet with
  | [t1, t2, t3] =>
    match getNextValue t1.value with
    | none => (grid, 0)
    | some nextValue =>
      let scoreIncrease := t1.value * 3
      let filteredGrid := grid.filter (fun tile => ¬ [t1, t2, t3].any (fun t => t.id == tile.id))
      let centerPosition := roundCentroid t1.position t2.position t3.position
      let newTile : Tile := ⟨freshId grid, nextValue, centerPosition, false, true⟩
      (filteredGrid ++ [newTile], scoreIncrease)
  | _ => (grid, 0)

/-- The per-triplet body of a resolveAllMerges pass: skip the triplet when one
of its tile ids is already gone from the working grid (consumed by an earlier
merge of the same pass), otherwise merge it and add its score. -/
def mergePassStep (p : List Tile × ℕ) (triplet : List Tile) : List Tile × ℕ :=
  let alreadyMerged := triplet.any (fun t => ¬ p.1.any (fun nt => nt.id == t.id))
  if alreadyMerged then p
  else
    let m := mergeTriplet p.1 triplet
    (m.1, p.2 + m.2)

/-- resolveAllMerges from the merge logic module, with explicit iteration fuel:
one unit of fuel per pass of the source's while loop; `none` means the loop
would still be running after `fuel` passes. -/
def resolveAllMerges : ℕ → List Tile → ℕ → Option (List Tile × ℕ)
  | 0, _, _ => none
  | fuel + 1, grid, acc =>
    let triplets := findAllTriplets grid
    if triplets.isEmpty then some (grid, acc)
    else
      let step := triplets.foldl mergePassStep (grid, 0)
      resolveAllMerges fuel step.1 (acc + step.2)

/-- A history entry {grid, score} from types.ts. -/
structure HistEntry where
  grid : List Tile
  score : ℕ
deriving DecidableEq, Repr

/-- GameState from types.ts. -/
structure GameState where
  grid : List Tile
  score : ℕ
  bestScore : ℕ
  isGameOver : Bool
  isWon : Bool
  canUndo : Bool
  history : List HistEntry
  undosRemaining : ℕ
deriving DecidableEq, Repr

instance : Inhabited GameState := ⟨⟨[], 0, 0, false, false, false, [], 0⟩⟩

/-- The empty coordinates of a grid, as filtered in addRandomTile / game.ts. -/
def emptyCoords (grid : List Tile) : List HexCoord :=
  getAllGridCoords.filter (fun c => ¬ grid.any (fun t => coordsEqual t.position c))

/-- The `emptyCells` count computed in moveInDirection / hasValidMoves. -/
def emptyCellsCount (grid : List Tile) : ℕ := (emptyCoords grid).length

/-- addRandomTile from game.ts; the random position index and the 90% value
draw (`low` = value 2, otherwise 6) are explicit parameters, the position index
reduced mod the number of empty cells to range over exactly the source's
possible draws. -/
def addRandomTile (pick : ℕ) (low : Bool) (grid : List Tile) : List Tile :=
  let empt := emptyCoords grid
  if h : empt.length = 0 then grid
  else
    let position := empt.get ⟨pick % empt.length, Nat.mod_lt _ (Nat.pos_of_ne_zero h)⟩
    let value : ℕ := if low then 2 else 6
    grid ++ [⟨freshId grid, value, position, true, false⟩]

/-- initializeGameState from game.ts: five spawns onto an empty board, with the
random draws of spawn number `i` supplied by `pick i` / `low i`. -/
def initializeGameState (pick : ℕ → ℕ) (low : ℕ → Bool) : GameState :=
  { grid := (List.range 5).foldl (fun g i => addRandomTile (pick i) (low i) g) [],
    score := 0, bestScore := 0, isGameOver := false, isWon := false,
    canUndo := false, history := [], undosRemaining := 3 }

/-- One line's slide step inside moveInDirection (game.ts): collect the tiles on
the line, drop them from the grid, re-append them packed from `line[0]` on, and
record whether any tile's position changed. -/
def slideLine (acc : List Tile × Bool) (line : List HexCoord) : List Tile × Bool :=
  let tilesInLine := line.filterMap (fun c => getTileAtCoord acc.1 c)
  if tilesInLine.isEmpty then acc
  else
    let remaining := acc.1.filter (fun t => ¬ tilesInLine.any (fun lt => lt.id == t.id))
    let placed := (line.zip tilesInLine).map (fun p =>
      (⟨p.2.id, p.2.value, p.1, p.2.isNew, p.2.isMerged⟩ : Tile))
    let moved := acc.2 || (line.zip tilesInLine).any (fun p => ¬ coordsEqual p.2.position p.1)
    (remaining ++ placed, moved)

/-- The flag reset at the start of moveInDirection. -/
def resetFlags (grid : List Tile) : List Tile :=
  grid.map (fun t => ⟨t.id, t.value, t.position, false, false⟩)

/-- The sliding phase of moveInDirection: every line processed in order. -/
def slideBoard (grid : List Tile) (d : Direction) : List Tile × Bool :=
  (getAllLines d).foldl slideLine (resetFlags grid, false)

/-- moveInDirection from game.ts.  `fuel` bounds the merge-resolution passes
(`none` = the source would not return); `pick`/`low` are the spawn draws. -/
def moveInDirection (fuel pick : ℕ) (low : Bool) (s : GameState) (d : Direction) :
    Option GameState :=
  let prevState : HistEntry := ⟨s.grid, s.score⟩
  let slid := slideBoard s.grid d
  if slid.2 = false then some s
  else
    match resolveAllMerges fuel slid.1 0 with
    | none => none
    | some (mergedGrid, scoreIncrease) =>
      let newGrid := addRandomTile pick low mergedGrid
      let emptyCells := emptyCellsCount newGrid
      let highestTile := newGrid.foldl (fun h t => max h t.value) (0 : ℕ)
      let isWon := decide (1062882 ≤ highestTile)
      let isGameOver := decide (emptyCells = 0) && !canMergeAnywhere newGrid
      some { grid := newGrid,
             score := s.score + scoreIncrease,
             bestScore := max s.bestScore (s.score + scoreIncrease),
             isGameOver := isGameOver,
             isWon := isWon,
             canUndo := true,
             history := s.history ++ [prevState],
             undosRemaining := s.undosRemaining }

/-- undoMove from game.ts. -/
def undoMove (s : GameState) : GameState :=
  if s.canUndo = false ∨ s.history.length = 0 ∨ s.undosRemaining = 0 then s
  else
    match s.history.getLast? with
    | none => s
    | some lastState =>
      { s with grid := lastState.grid, score := lastState.score,
               isGameOver := false, isWon := false,
               canUndo := decide (0 < s.history.dropLast.length),
               history := s.history.dropLast,
               undosRemaining := s.undosRemaining - 1 }

/-- resetGame from game.ts: a fresh state carrying the old bestScore forward. -/
def resetGame (pick : ℕ → ℕ) (low : ℕ → Bool) (s : GameState) : GameState :=
  { initializeGameState pick low with bestScore := s.bestScore }

/-- hasValidMoves from game.ts. -/
def hasValidMoves (grid : List Tile) : Bool :=
  decide (0 < emptyCellsCount grid) || canMergeAnywhere grid

/-- The states reachable from initialization by moves, undos and resets, under
arbitrary random draws (spawn position, spawn value) and any merge fuel. -/
inductive Reachable : GameState → Prop
  | init (pick : ℕ → ℕ) (low : ℕ → Bool) : Reachable (initializeGameState pick low)
  | move (s s1 : GameState) (fuel pick : ℕ) (low : Bool) (d : Direction) :
      Reachable s → moveInDirection fuel pick low s d = some s1 → Reachable s1
  | undo (s : GameState) : Reachable s → Reachable (undoMove s)
  | reset (s : GameState) (pick : ℕ → ℕ) (low : ℕ → Bool) :
      Reachable s → Reachable (resetGame pick low s)

instance : Inhabited HexCoord := ⟨⟨0, 0⟩⟩

/-! ## Claim C9: merging a terminal-value triplet is a silent no-op -/

/-- C9: for every board and every three-tile triplet whose tiles carry the
terminal progression value 1062882, mergeTriplet returns the input grid
unchanged with a score increase of zero, regardless of the tiles' positions
(hence regardless of adjacency). -/
theorem mergeTriplet_terminal_noop (grid : List Tile) (t1 t2 t3 : Tile)
    (h1 : t1.value = 1062882) (h2 : t2.value = 1062882) (h3 : t3.value = 1062882) :
    mergeTriplet grid [t1, t2, t3] = (grid, 0) := by
  have hnv : getNextValue t1.value = none := by rw [h1]; rfl
  simp only [mergeTriplet, hnv]

/-- A mutually adjacent triplet of terminal tiles at (0,0), (0,1), (1,0). -/
def termTriplet : List Tile :=
  [⟨1, 1062882, ⟨0, 0⟩, false, false⟩, ⟨2, 1062882, ⟨0, 1⟩, false, false⟩,
   ⟨3, 1062882, ⟨1, 0⟩, false, false⟩]

/-- Witness for C9 at a concrete input. -/
theorem mergeTriplet_terminal_noop_witness :
    (⟨1, 1062882, ⟨0, 0⟩, false, false⟩ : Tile).value = 1062882 ∧
    mergeTriplet [] [⟨1, 1062882, ⟨0, 0⟩, false, false⟩, ⟨2, 1062882, ⟨0, 1⟩, false, false⟩,
      ⟨3, 1062882, ⟨1, 0⟩, false, false⟩] = ([], 0) :=
  ⟨rfl, mergeTriplet_terminal_noop [] _ _ _ rfl rfl rfl⟩

/-! ## Claim C1: resolveAllMerges does not terminate on a terminal triplet -/

/-- C1 (refuting the claimed universal termination): on a board holding a
mutually adjacent triplet of the terminal value 1062882, findAllTriplets finds
a triplet on every pass while the pass leaves the board unchanged, so the
while loop of resolveAllMerges never reaches a pass with zero triplets: every
fuel bound is exhausted. -/
theorem resolveAllMerges_terminal_diverges :
    findAllTriplets termTriplet ≠ [] ∧
      ∀ fuel acc, resolveAllMerges fuel termTriplet acc = none := by
  constructor
  · decide
  · intro fuel
    induction fuel with
    | zero => intro acc; rfl
    | succ n ih =>
      intro acc
      have h : resolveAllMerges (n + 1) termTriplet acc
          = resolveAllMerges n termTriplet (acc + 0) := rfl
      rw [h, Nat.add_zero]
      exact ih acc

/-! ## Claim C7: the lines of getAllLines partition the valid grid coordinates -/

/-- C7 counterexample to the stated cardinality: the grid has 19 valid
coordinates (radius 2), not 37. -/
theorem getAllGridCoords_length_not_37 :
    getAllGridCoords.length = 19 ∧ getAllGridCoords.length ≠ 37 := by decide

/-- C7 (amended to the actual cardinality 19): for every direction, the lines
of getAllLines cover each of the 19 valid grid coordinates exactly once and
contain nothing else; each line is a maximal straight run: consecutive entries
differ by the direction vector, stepping backward from the first entry leaves
the grid, and stepping forward from the last entry leaves the grid. -/
theorem getAllLines_partition :
    getAllGridCoords.length = 19 ∧
    ∀ d : Direction,
      ((getAllLines d).flatten.Nodup ∧
       (∀ c ∈ getAllGridCoords, c ∈ (getAllLines d).flatten) ∧
       (∀ c ∈ (getAllLines d).flatten, c ∈ getAllGridCoords)) ∧
      (∀ line ∈ getAllLines d,
        line ≠ [] ∧
        (∀ p ∈ line.zip line.tail, p.2 = addCoords p.1 (dirVec d)) ∧
        isValidCoord (addCoords line.headI (dirVec (d + 3))) = false ∧
        isValidCoord (addCoords line.getLastI (dirVec d)) = false) := by
  decide

/-- Witness for the amended C7 at a concrete input: the center cell lies on
exactly one EAST line. -/
theorem getAllLines_partition_witness :
    (⟨0, 0⟩ : HexCoord) ∈ getAllGridCoords ∧
    (⟨0, 0⟩ : HexCoord) ∈ (getAllLines 1).flatten :=
  ⟨by decide, (getAllLines_partition.2 1).1.2.1 ⟨0, 0⟩ (by decide)⟩

/-! ## Claim C5: a slide that moves no tile is a complete no-op -/

/-- C5: if the sliding phase leaves every tile at its original coordinate (the
moved flag stays false), moveInDirection returns the input state itself: no
history entry, no spawn, no score/bestScore/flag/undo change — even when
merges would have been possible on the board. -/
theorem moveInDirection_noop (fuel pick : ℕ) (low : Bool) (s : GameState) (d : Direction)
    (h : (slideBoard s.grid d).2 = false) :
    moveInDirection fuel pick low s d = some s := by
  simp only [moveInDirection, h, if_pos]

/-- A board whose tiles are all packed against the EAST end of their lines and
which contains a mutually adjacent equal-value triplet (a merge would be
possible, yet the move is a no-op). -/
def noopState : GameState :=
  ⟨[⟨1, 2, ⟨2, 0⟩, false, false⟩, ⟨2, 2, ⟨1, 0⟩, false, false⟩,
    ⟨3, 2, ⟨1, 1⟩, false, false⟩], 0, 0, false, false, false, [], 3⟩

/-- Witness for C5 at a concrete input: the packed board has a possible merge,
yet an EAST move returns the state unchanged. -/
theorem moveInDirection_noop_witness :
    (slideBoard noopState.grid 1).2 = false ∧ canMergeAnywhere noopState.grid = true ∧
    moveInDirection 1 0 true noopState 1 = some noopState :=
  ⟨by decide, by decide, moveInDirection_noop 1 0 true noopState 1 (by decide)⟩

/-! ## Claim C4: undo round-trip -/

/-- C4: for every state with undosRemaining > 0, if a move in direction d
actually moved at least one tile (and its merge resolution terminated in
`some s1`), then undoMove s1 restores the original grid and score exactly,
decrements undosRemaining by one, and clears isGameOver and isWon. -/
theorem undoMove_roundtrip (fuel pick : ℕ) (low : Bool) (s s1 : GameState) (d : Direction)
    (hu : 0 < s.undosRemaining)
    (hmoved : (slideBoard s.grid d).2 = true)
    (hm : moveInDirection fuel pick low s d = some s1) :
    (undoMove s1).grid = s.grid ∧ (undoMove s1).score = s.score ∧
    (undoMove s1).undosRemaining = s.undosRemaining - 1 ∧
    (undoMove s1).isGameOver = false ∧ (undoMove s1).isWon = false := by
  simp only [moveInDirection, hmoved, Bool.true_eq_false, if_false] at hm
  cases hr : resolveAllMerges fuel (slideBoard s.grid d).1 0 with
  | none => rw [hr] at hm; simp at hm
  | some p =>
    obtain ⟨mg, inc⟩ := p
    rw [hr] at hm
    simp only [Option.some.injEq] at hm
    subst hm
    have hne : s.undosRemaining ≠ 0 := Nat.pos_iff_ne_zero.mp hu
    simp [undoMove, hne, List.getLast?_concat, List.dropLast_concat]

/-- A small starting state: one tile at the grid center, three undos. -/
def moveSampleState : GameState :=
  ⟨[⟨1, 2, ⟨0, 0⟩, false, false⟩], 0, 0, false, false, false, [], 3⟩

/-- The concrete result of an EAST move from `moveSampleState`. -/
def moveSampleResult : GameState := (moveInDirection 1 0 true moveSampleState 1).getD default

/-- Witness for C4 at a concrete input. -/
theorem undoMove_roundtrip_witness :
    0 < moveSampleState.undosRemaining ∧ (slideBoard moveSampleState.grid 1).2 = true ∧
    ((undoMove moveSampleResult).grid = moveSampleState.grid ∧
     (undoMove moveSampleResult).score = moveSampleState.score ∧
     (undoMove moveSampleResult).undosRemaining = moveSampleState.undosRemaining - 1 ∧
     (undoMove moveSampleResult).isGameOver = false ∧
     (undoMove moveSampleResult).isWon = false) :=
  ⟨by decide, by decide,
   undoMove_roundtrip 1 0 true moveSampleState moveSampleResult 1
     (by decide) (by decide) (by decide)⟩

/-! ## Claim C6: win and game-over flags after a real move -/

/-- The maximum tile value reached by the fold in moveInDirection is at least K
iff the start is or some listed tile's value is. -/
theorem foldl_max_value_le_iff (K : ℕ) (l : List Tile) : ∀ init : ℕ,
    K ≤ l.foldl (fun h t => max h t.value) init ↔ K ≤ init ∨ ∃ t ∈ l, K ≤ t.value := by
  induction l with
  | nil => intro init; simp
  | cons a l ih =>
    intro init
    rw [List.foldl_cons, ih]
    simp only [le_max_iff, List.mem_cons]
    constructor
    · rintro (⟨h | h⟩ | ⟨t, ht, hK⟩)
      · exact Or.inl h
      · exact Or.inr ⟨a, Or.inl rfl, h⟩
      · exact Or.inr ⟨t, Or.inr ht, hK⟩
    · rintro (h | ⟨t, (rfl | ht), hK⟩)
      · exact Or.inl (Or.inl h)
      · exact Or.inl (Or.inr hK)
      · exact Or.inr ⟨t, ht, hK⟩

/-- C6: after every move that actually moved a tile (and whose merge resolution
terminated), the returned state has isWon = "some tile's value is at least
1062882" and isGameOver = "no empty cell and no triplet", which is exactly the
negation of hasValidMoves on the resulting grid. -/
theorem moveInDirection_flags (fuel pick : ℕ) (low : Bool) (s s1 : GameState) (d : Direction)
    (hmoved : (slideBoard s.grid d).2 = true)
    (hm : moveInDirection fuel pick low s d = some s1) :
    (s1.isWon = true ↔ ∃ t ∈ s1.grid, 1062882 ≤ t.value) ∧
    (s1.isGameOver = true ↔ emptyCellsCount s1.grid = 0 ∧ findAllTriplets s1.grid = []) ∧
    s1.isGameOver = !hasValidMoves s1.grid := by
  simp only [moveInDirection, hmoved, Bool.true_eq_false, if_false] at hm
  cases hr : resolveAllMerges fuel (slideBoard s.grid d).1 0 with
  | none => rw [hr] at hm; simp at hm
  | some p =>
    obtain ⟨mg, inc⟩ := p
    rw [hr] at hm
    simp only [Option.some.injEq] at hm
    subst hm
    refine ⟨?_, ?_, ?_⟩
    · simp only [decide_eq_true_eq, foldl_max_value_le_iff]
      simp
    · simp [canMergeAnywhere, Nat.pos_iff_ne_zero, List.length_eq_zero]
    · simp only [hasValidMoves, canMergeAnywhere, Bool.not_or]
      congr 1
      rw [← decide_not, decide_eq_decide]
      omega

/-- The concrete result of a WEST move from `moveSampleState`. -/
def moveSampleResultWest : GameState := (moveInDirection 1 1 true moveSampleState 4).getD default

/-- Witness for C6 at a concrete input. -/
theorem moveInDirection_flags_witness :
    (slideBoard moveSampleState.grid 4).2 = true ∧
    ((moveSampleResultWest.isWon = true ↔ ∃ t ∈ moveSampleResultWest.grid, 1062882 ≤ t.value) ∧
     (moveSampleResultWest.isGameOver = true ↔
       emptyCellsCount moveSampleResultWest.grid = 0 ∧ findAllTriplets moveSampleResultWest.grid = []) ∧
     moveSampleResultWest.isGameOver = !hasValidMoves moveSampleResultWest.grid) :=
  ⟨by decide,
   moveInDirection_flags 1 1 true moveSampleState moveSampleResultWest 4 (by decide) (by decide)⟩

/-! ## Claim C2: triplets found in one scan are not pairwise disjoint -/

/-- Four equal tiles: A at (-1,1), D at (1,0), B at (0,0), C at (0,1); B and C
are common neighbors of both A and D. -/
def overlapGrid : List Tile :=
  [⟨1, 2, ⟨-1, 1⟩, false, false⟩, ⟨2, 2, ⟨1, 0⟩, false, false⟩,
   ⟨3, 2, ⟨0, 0⟩, false, false⟩, ⟨4, 2, ⟨0, 1⟩, false, false⟩]

/-- C2 counterexample: one findAllTriplets scan of `overlapGrid` returns two
triplets, and the tile with id 3 (and likewise id 4) is a member of both, so
the triplets are not pairwise disjoint: the claimed-position marking only
prevents claimed positions from serving as later centers, not from being
reused as neighbor members. -/
theorem findAllTriplets_overlap :
    (findAllTriplets overlapGrid).length = 2 ∧
    (findAllTriplets overlapGrid).map
      (fun tr => tr.count (⟨3, 2, ⟨0, 0⟩, false, false⟩ : Tile)) = [1, 1] ∧
    (findAllTriplets overlapGrid).map
      (fun tr => tr.count (⟨4, 2, ⟨0, 1⟩, false, false⟩ : Tile)) = [1, 1] := by
  decide

theorem coordsEqual_iff {a b : HexCoord} : coordsEqual a b = true ↔ a = b := by
  simp only [coordsEqual, decide_eq_true_eq]
  constructor
  · rintro ⟨h1, h2⟩; cases a; cases b; simp_all
  · rintro rfl; exact ⟨rfl, rfl⟩

theorem getTileAtCoord_position {grid : List Tile} {c : HexCoord} {t : Tile}
    (h : getTileAtCoord grid c = some t) : t.position = c := by
  rw [getTileAtCoord] at h
  have hp := List.find?_some h
  exact coordsEqual_iff.mp hp

theorem getTileAtCoord_mem {grid : List Tile} {c : HexCoord} {t : Tile}
    (h : getTileAtCoord grid c = some t) : t ∈ grid := by
  rw [getTileAtCoord] at h
  exact List.mem_of_find?_eq_some h

/-- The head of a nonempty findTripletsAt result is the tile at the probed
coordinate. -/
theorem findTripletsAt_head_position {grid : List Tile} {c : HexCoord} {t1 : Tile}
    {l : List Tile} (h : findTripletsAt grid c = t1 :: l) : t1.position = c := by
  cases hg : getTileAtCoord grid c with
  | none => rw [findTripletsAt, hg] at h; simp at h
  | some center =>
    simp only [findTripletsAt, hg] at h
    split at h
    · simp at h
    · split at h
      · rename_i a b heq
        injection h with h1 h2
        exact h1 ▸ getTileAtCoord_position hg
      · simp at h

/-- Every triplet recorded by the scan loop has a head (its center) whose
position was not yet claimed when the scan reached it. -/
theorem findAllTripletsGo_head_not_checked (grid : List Tile) :
    ∀ (ts : List Tile) (checked : List HexCoord) (T : List Tile),
      T ∈ findAllTripletsGo grid ts checked →
      ∃ t1 l, T = t1 :: l ∧ t1.position ∉ checked := by
  intro ts
  induction ts with
  | nil => intro checked T h; simp [findAllTripletsGo] at h
  | cons t rest ih =>
    intro checked T h
    simp only [findAllTripletsGo] at h
    by_cases hc : t.position ∈ checked
    · rw [if_pos hc] at h; exact ih checked T h
    · rw [if_neg hc] at h
      by_cases h3 : (findTripletsAt grid t.position).length = 3
      · rw [if_pos h3] at h
        rcases List.mem_cons.mp h with rfl | hmem
        · cases hT : findTripletsAt grid t.position with
          | nil => rw [hT] at h3; simp at h3
          | cons t1 l =>
            refine ⟨t1, l, rfl, ?_⟩
            rw [findTripletsAt_head_position hT]
            exact hc
        · obtain ⟨t1, l, rfl, hn⟩ := ih _ _ hmem
          exact ⟨t1, l, rfl, fun hc2 => hn (by simp [hc2])⟩
      · rw [if_neg h3] at h
        obtain ⟨t1, l, rfl, hn⟩ := ih _ _ h
        exact ⟨t1, l, rfl, fun hc2 => hn (List.mem_cons_of_mem _ hc2)⟩

/-- In the scan loop's output, the head (center) of any later triplet has a
position different from every member of any earlier triplet. -/
theorem findAllTripletsGo_later_head_fresh (grid : List Tile) :
    ∀ (ts : List Tile) (checked : List HexCoord) (i j : ℕ), i < j →
      ∀ (Ti Tj : List Tile) (x : Tile),
        (findAllTripletsGo grid ts checked).get? i = some Ti →
        (findAllTripletsGo grid ts checked).get? j = some Tj →
        Tj.head? = some x →
        ∀ t ∈ Ti, x.position ≠ t.position := by
  intro ts
  induction ts with
  | nil => intro checked i j hij Ti Tj x hTi hTj hx t ht; simp [findAllTripletsGo] at hTi
  | cons u rest ih =>
    intro checked i j hij Ti Tj x hTi hTj hx t ht
    simp only [findAllTripletsGo] at hTi hTj
    by_cases hc : u.position ∈ checked
    · rw [if_pos hc] at hTi hTj
      exact ih checked i j hij Ti Tj x hTi hTj hx t ht
    · rw [if_neg hc] at hTi hTj
      by_cases h3 : (findTripletsAt grid u.position).length = 3
      · rw [if_pos h3] at hTi hTj
        cases i with
        | zero =>
          rw [List.get?_cons_zero] at hTi
          injection hTi with hTi
          subst hTi
          cases j with
          | zero => omega
          | succ j0 =>
            rw [List.get?_cons_succ] at hTj
            have hmem := List.get?_mem hTj
            obtain ⟨t1, l, hTl, hnot⟩ := findAllTripletsGo_head_not_checked grid rest _ _ hmem
            subst hTl
            simp only [List.head?_cons, Option.some.injEq] at hx
            subst hx
            intro hpos
            exact hnot (List.mem_append_left _ (hpos ▸ List.mem_map_of_mem Tile.position ht))
        | succ i0 =>
          cases j with
          | zero => omega
          | succ j0 =>
            rw [List.get?_cons_succ] at hTi hTj
            exact ih _ i0 j0 (Nat.lt_of_succ_lt_succ hij) Ti Tj x hTi hTj hx t ht
      · rw [if_neg h3] at hTi hTj
        exact ih _ i j hij Ti Tj x hTi hTj hx t ht

/-- C2 (amended): the triplets returned by one findAllTriplets scan need not be
pairwise disjoint (a later triplet may reuse an earlier triplet's members as
its two neighbors); what holds is that each recorded triplet's center (head)
position is fresh: it does not occur anywhere in any earlier triplet. -/
theorem findAllTriplets_centers_fresh (grid : List Tile) (i j : ℕ) (hij : i < j)
    (Ti Tj : List Tile) (x : Tile)
    (hTi : (findAllTriplets grid).get? i = some Ti)
    (hTj : (findAllTriplets grid).get? j = some Tj)
    (hx : Tj.head? = some x) :
    ∀ t ∈ Ti, x.position ≠ t.position :=
  findAllTripletsGo_later_head_fresh grid grid [] i j hij Ti Tj x hTi hTj hx

/-- Witness for the amended C2 at the concrete overlap board: the second
triplet's center (the tile with id 2 at (1,0)) lies outside the first triplet
(whose members' positions nevertheless recur in the second triplet). -/
theorem findAllTriplets_centers_fresh_witness :
    (findAllTriplets overlapGrid).get? 0 =
      some [⟨1, 2, ⟨-1, 1⟩, false, false⟩, ⟨3, 2, ⟨0, 0⟩, false, false⟩,
            ⟨4, 2, ⟨0, 1⟩, false, false⟩] ∧
    (findAllTriplets overlapGrid).get? 1 =
      some [⟨2, 2, ⟨1, 0⟩, false, false⟩, ⟨4, 2, ⟨0, 1⟩, false, false⟩,
            ⟨3, 2, ⟨0, 0⟩, false, false⟩] ∧
    ∀ t ∈ [(⟨1, 2, ⟨-1, 1⟩, false, false⟩ : Tile), ⟨3, 2, ⟨0, 0⟩, false, false⟩,
           ⟨4, 2, ⟨0, 1⟩, false, false⟩],
      (⟨2, 2, ⟨1, 0⟩, false, false⟩ : Tile).position ≠ t.position :=
  ⟨by decide, by decide,
   findAllTriplets_centers_fresh overlapGrid 0 1 (by decide)
     [⟨1, 2, ⟨-1, 1⟩, false, false⟩, ⟨3, 2, ⟨0, 0⟩, false, false⟩,
      ⟨4, 2, ⟨0, 1⟩, false, false⟩]
     [⟨2, 2, ⟨1, 0⟩, false, false⟩, ⟨4, 2, ⟨0, 1⟩, false, false⟩,
      ⟨3, 2, ⟨0, 0⟩, false, false⟩]
     ⟨2, 2, ⟨1, 0⟩, false, false⟩
     (by decide) (by decide) (by decide)⟩

/-! ## Claim C10: the merge centroid lands on one of the consumed positions -/

theorem addCoords_zero (a : HexCoord) : addCoords a ⟨0, 0⟩ = a := by
  cases a; simp [addCoords]

theorem addCoords_left_cancel {a u v : HexCoord} (h : addCoords a u = addCoords a v) :
    u = v := by
  cases u; cases v; cases a
  simp only [addCoords, HexCoord.mk.injEq] at h ⊢
  omega

theorem round3_shift (a s : ℤ) : round3 (3 * a + s) = a + round3 s := by
  unfold round3
  rw [Int.fdiv_eq_ediv _ (by norm_num), Int.fdiv_eq_ediv _ (by norm_num)]
  have h : 2 * (3 * a + s) + 3 = (2 * s + 3) + a * 6 := by ring
  rw [h, Int.add_mul_ediv_right _ _ (by norm_num : (6 : ℤ) ≠ 0)]
  ring

/-- Splitting the rounded centroid of `p`, `p+d1`, `p+d2` into `p` plus a
rounded offset. -/
theorem roundCentroid_add (p d1 d2 : HexCoord) :
    roundCentroid p (addCoords p d1) (addCoords p d2) =
      addCoords p ⟨round3 (d1.q + d2.q), round3 (d1.r + d2.r)⟩ := by
  have hq : p.q + (p.q + d1.q) + (p.q + d2.q) = 3 * p.q + (d1.q + d2.q) := by ring
  have hr : p.r + (p.r + d1.r) + (p.r + d2.r) = 3 * p.r + (d1.r + d2.r) := by ring
  simp [roundCentroid, addCoords, hq, hr, round3_shift]

/-- For any two direction vectors whose difference is again a direction vector,
the rounded centroid offset is the zero vector or one of the two vectors. -/
theorem centroid_offset_cases :
    ∀ d1 ∈ DIRECTION_VECTORS, ∀ d2 ∈ DIRECTION_VECTORS, ∀ w ∈ DIRECTION_VECTORS,
      d2 = addCoords d1 w →
      (⟨round3 (d1.q + d2.q), round3 (d1.r + d2.r)⟩ : HexCoord) = ⟨0, 0⟩ ∨
      (⟨round3 (d1.q + d2.q), round3 (d1.r + d2.r)⟩ : HexCoord) = d1 ∨
      (⟨round3 (d1.q + d2.q), round3 (d1.r + d2.r)⟩ : HexCoord) = d2 := by
  decide

/-- What a successful firstAdjPair search guarantees: both tiles come from the
list and the second is adjacent to the first. -/
theorem firstAdjPair_spec :
    ∀ (l : List Tile) (a b : Tile), firstAdjPair l = some (a, b) →
      a ∈ l ∧ b ∈ l ∧
        (getNeighbors a.position).any (fun n => coordsEqual n b.position) = true := by
  intro l
  induction l with
  | nil => intro a b h; simp [firstAdjPair] at h
  | cons u rest ih =>
    intro a b h
    simp only [firstAdjPair] at h
    cases hf : rest.find?
        (fun b2 => (getNeighbors u.position).any (fun n => coordsEqual n b2.position)) with
    | some b2 =>
      rw [hf] at h
      injection h with h
      obtain ⟨rfl, rfl⟩ : u = a ∧ b2 = b := by
        constructor <;> [exact congrArg Prod.fst h; exact congrArg Prod.snd h]
      refine ⟨List.mem_cons_self _ _, List.mem_cons_of_mem _ (List.mem_of_find?_eq_some hf), ?_⟩
      have hp := List.find?_some hf
      exact hp
    | none =>
      rw [hf] at h
      obtain ⟨ha, hb, hadj⟩ := ih a b h
      exact ⟨List.mem_cons_of_mem _ ha, List.mem_cons_of_mem _ hb, hadj⟩

/-- Shape of a successful findTripletsAt probe: the head is the tile at the
probed coordinate; the two others are equal-valued tiles of the grid sitting
on neighbor cells of the center, the third adjacent to the second. -/
theorem findTripletsAt_shape {grid : List Tile} {c : HexCoord} {t1 t2 t3 : Tile}
    (h : findTripletsAt grid c = [t1, t2, t3]) :
    t1 ∈ grid ∧ t2 ∈ grid ∧ t3 ∈ grid ∧ t1.position = c ∧
    t2.value = t1.value ∧ t3.value = t1.value ∧
    (∃ d1 ∈ DIRECTION_VECTORS, t2.position = addCoords c d1) ∧
    (∃ d2 ∈ DIRECTION_VECTORS, t3.position = addCoords c d2) ∧
    (∃ w ∈ DIRECTION_VECTORS, t3.position = addCoords t2.position w) := by
  cases hg : getTileAtCoord grid c with
  | none => rw [findTripletsAt, hg] at h; simp at h
  | some center =>
    simp only [findTripletsAt, hg] at h
    split at h
    · simp at h
    · split at h
      · rename_i a b heq
        injection h with h1 h
        injection h with h2 h
        injection h with h3 h
        subst h1; subst h2; subst h3
        obtain ⟨ha, hb, hadj⟩ := firstAdjPair_spec _ _ _ heq
        rw [List.mem_filter] at ha hb
        obtain ⟨ha1, hav⟩ := ha
        obtain ⟨hb1, hbv⟩ := hb
        rw [List.mem_filterMap] at ha1 hb1
        obtain ⟨na, hna, hfa⟩ := ha1
        obtain ⟨nb, hnb, hfb⟩ := hb1
        rw [getNeighbors, List.mem_map] at hna hnb
        obtain ⟨d1, hd1, hd1e⟩ := hna
        obtain ⟨d2, hd2, hd2e⟩ := hnb
        rw [List.any_eq_true] at hadj
        obtain ⟨nw, hnw, hw⟩ := hadj
        rw [getNeighbors, List.mem_map] at hnw
        obtain ⟨w, hwm, hwe⟩ := hnw
        refine ⟨getTileAtCoord_mem hg, getTileAtCoord_mem hfa, getTileAtCoord_mem hfb,
          getTileAtCoord_position hg, beq_iff_eq.mp hav, beq_iff_eq.mp hbv,
          ⟨d1, hd1, by rw [getTileAtCoord_position hfa, ← hd1e]⟩,
          ⟨d2, hd2, by rw [getTileAtCoord_position hfb, ← hd2e]⟩,
          ⟨w, hwm, by rw [← coordsEqual_iff.mp hw, ← hwe]⟩⟩
      · simp at h

/-- Position determines the tile on a board whose tile positions are distinct. -/
theorem tile_pos_injective {grid : List Tile} (h : (grid.map Tile.position).Nodup)
    {a b : Tile} (ha : a ∈ grid) (hb : b ∈ grid) (hab : a.position = b.position) : a = b :=
  List.inj_on_of_nodup_map h ha hb hab

/-- The rounded centroid of a findTripletsAt triplet is one of the three
consumed tiles' own positions. -/
theorem roundCentroid_cases_of_findTripletsAt {grid : List Tile} {c : HexCoord}
    {t1 t2 t3 : Tile} (h : findTripletsAt grid c = [t1, t2, t3]) :
    roundCentroid t1.position t2.position t3.position = t1.position ∨
    roundCentroid t1.position t2.position t3.position = t2.position ∨
    roundCentroid t1.position t2.position t3.position = t3.position := by
  obtain ⟨hm1, hm2, hm3, hp1, -, -, ⟨d1, hd1, hp2⟩, ⟨d2, hd2, hp3⟩, ⟨w, hwm, hp32⟩⟩ :=
    findTripletsAt_shape h
  have hd2w : d2 = addCoords d1 w := by
    apply addCoords_left_cancel (a := c)
    rw [← hp3, hp32, hp2]
    cases c; cases d1; cases w
    simp only [addCoords, HexCoord.mk.injEq]
    omega
  have hcent : roundCentroid t1.position t2.position t3.position =
      addCoords c ⟨round3 (d1.q + d2.q), round3 (d1.r + d2.r)⟩ := by
    rw [hp1, hp2, hp3]
    exact roundCentroid_add c d1 d2
  have hcases := centroid_offset_cases d1 hd1 d2 hd2 w hwm hd2w
  rcases hcases with h0 | h1 | h2
  · left; rw [hcent, h0, addCoords_zero, hp1]
  · right; left; rw [hcent, h1, hp2]
  · right; right; rw [hcent, h2, hp3]

/-- C10: for every board with pairwise distinct, valid tile positions, and every
triplet returned by findTripletsAt, the rounded centroid computed by
mergeTriplet is one of the three consumed tiles' own positions; hence it is a
valid grid cell, and no tile left after removing the three consumed tiles
occupies it. -/
theorem roundCentroid_lands_on_triplet (grid : List Tile) (c : HexCoord) (t1 t2 t3 : Tile)
    (hNodup : (grid.map Tile.position).Nodup)
    (hval : ∀ t ∈ grid, isValidCoord t.position = true)
    (h : findTripletsAt grid c = [t1, t2, t3]) :
    (roundCentroid t1.position t2.position t3.position = t1.position ∨
     roundCentroid t1.position t2.position t3.position = t2.position ∨
     roundCentroid t1.position t2.position t3.position = t3.position) ∧
    isValidCoord (roundCentroid t1.position t2.position t3.position) = true ∧
    ∀ t ∈ grid.filter (fun tile => ¬ [t1, t2, t3].any (fun x => x.id == tile.id)),
      t.position ≠ roundCentroid t1.position t2.position t3.position := by
  obtain ⟨hm1, hm2, hm3, -, -, -, -, -, -⟩ := findTripletsAt_shape h
  have hone := roundCentroid_cases_of_findTripletsAt h
  have hvalc : isValidCoord (roundCentroid t1.position t2.position t3.position) = true := by
    rcases hone with he | he | he <;> rw [he]
    · exact hval t1 hm1
    · exact hval t2 hm2
    · exact hval t3 hm3
  refine ⟨hone, hvalc, ?_⟩
  intro t ht hpos
  rw [List.mem_filter] at ht
  obtain ⟨htg, hid⟩ := ht
  have hid2 : ¬ ∃ x ∈ [t1, t2, t3], (x.id == t.id) = true := by
    have hd := of_decide_eq_true hid
    rw [List.any_eq_true] at hd
    exact hd
  have hid3 : t.id ≠ t1.id ∧ t.id ≠ t2.id ∧ t.id ≠ t3.id := by
    refine ⟨?_, ?_, ?_⟩ <;> intro he
    · exact hid2 ⟨t1, by simp, by simp [he]⟩
    · exact hid2 ⟨t2, by simp, by simp [he]⟩
    · exact hid2 ⟨t3, by simp, by simp [he]⟩
  rcases hone with he | he | he
  · exact hid3.1 (congrArg Tile.id (tile_pos_injective hNodup htg hm1 (by rw [hpos, he])))
  · exact hid3.2.1 (congrArg Tile.id (tile_pos_injective hNodup htg hm2 (by rw [hpos, he])))
  · exact hid3.2.2 (congrArg Tile.id (tile_pos_injective hNodup htg hm3 (by rw [hpos, he])))

/-- A board holding exactly one mutually adjacent triplet of value 2. -/
def tripletBoard : List Tile :=
  [⟨1, 2, ⟨0, 0⟩, false, false⟩, ⟨2, 2, ⟨0, 1⟩, false, false⟩, ⟨3, 2, ⟨1, 0⟩, false, false⟩]

/-- Witness for C10 at a concrete input (the probe at (0,0) returns the triplet
in order center, west neighbor, northwest neighbor). -/
theorem roundCentroid_lands_on_triplet_witness :
    (tripletBoard.map Tile.position).Nodup ∧
    findTripletsAt tripletBoard ⟨0, 0⟩ =
      [⟨1, 2, ⟨0, 0⟩, false, false⟩, ⟨3, 2, ⟨1, 0⟩, false, false⟩,
       ⟨2, 2, ⟨0, 1⟩, false, false⟩] ∧
    ((roundCentroid (⟨1, 2, ⟨0, 0⟩, false, false⟩ : Tile).position
        (⟨3, 2, ⟨1, 0⟩, false, false⟩ : Tile).position
        (⟨2, 2, ⟨0, 1⟩, false, false⟩ : Tile).position =
          (⟨1, 2, ⟨0, 0⟩, false, false⟩ : Tile).position ∨
      roundCentroid (⟨1, 2, ⟨0, 0⟩, false, false⟩ : Tile).position
        (⟨3, 2, ⟨1, 0⟩, false, false⟩ : Tile).position
        (⟨2, 2, ⟨0, 1⟩, false, false⟩ : Tile).position =
          (⟨3, 2, ⟨1, 0⟩, false, false⟩ : Tile).position ∨
      roundCentroid (⟨1, 2, ⟨0, 0⟩, false, false⟩ : Tile).position
        (⟨3, 2, ⟨1, 0⟩, false, false⟩ : Tile).position
        (⟨2, 2, ⟨0, 1⟩, false, false⟩ : Tile).position =
          (⟨2, 2, ⟨0, 1⟩, false, false⟩ : Tile).position) ∧
     isValidCoord (roundCentroid (⟨1, 2, ⟨0, 0⟩, false, false⟩ : Tile).position
        (⟨3, 2, ⟨1, 0⟩, false, false⟩ : Tile).position
        (⟨2, 2, ⟨0, 1⟩, false, false⟩ : Tile).position) = true ∧
     ∀ t ∈ tripletBoard.filter (fun tile =>
        ¬ [(⟨1, 2, ⟨0, 0⟩, false, false⟩ : Tile), ⟨3, 2, ⟨1, 0⟩, false, false⟩,
           ⟨2, 2, ⟨0, 1⟩, false, false⟩].any (fun x => x.id == tile.id)),
       t.position ≠ roundCentroid (⟨1, 2, ⟨0, 0⟩, false, false⟩ : Tile).position
        (⟨3, 2, ⟨1, 0⟩, false, false⟩ : Tile).position
        (⟨2, 2, ⟨0, 1⟩, false, false⟩ : Tile).position) :=
  ⟨by decide, by decide,
   roundCentroid_lands_on_triplet tripletBoard ⟨0, 0⟩ _ _ _
     (by decide) (by decide) (by decide)⟩

/-! ## Claim C3: resolving a board that is exactly one triplet -/

theorem coordsEqual_refl (a : HexCoord) : coordsEqual a a = true := by simp [coordsEqual]

theorem coordsEqual_add_add (a u v : HexCoord) :
    coordsEqual (addCoords a u) (addCoords a v) = decide (u = v) := by
  cases u; cases v
  simp only [coordsEqual, addCoords, HexCoord.mk.injEq]
  rw [decide_eq_decide]
  omega

theorem coordsEqual_base_add (a v : HexCoord) :
    coordsEqual a (addCoords a v) = decide (v = (⟨0, 0⟩ : HexCoord)) := by
  cases v
  simp only [coordsEqual, addCoords, HexCoord.mk.injEq]
  rw [decide_eq_decide]
  omega

theorem coordsEqual_add_base (a v : HexCoord) :
    coordsEqual (addCoords a v) a = decide (v = (⟨0, 0⟩ : HexCoord)) := by
  cases v
  simp only [coordsEqual, addCoords, HexCoord.mk.injEq]
  rw [decide_eq_decide]
  omega

theorem addCoords_assoc (a u v : HexCoord) :
    addCoords (addCoords a u) v = addCoords a (addCoords u v) := by
  cases a; cases u; cases v
  simp only [addCoords, HexCoord.mk.injEq]
  omega

theorem addCoords_mk (a b c d : ℤ) :
    addCoords ⟨a, b⟩ ⟨c, d⟩ = (⟨a + c, b + d⟩ : HexCoord) := rfl

theorem addCoords_right_inj (a : HexCoord) {u v : HexCoord} :
    (addCoords a u = addCoords a v) ↔ u = v := by
  constructor
  · exact addCoords_left_cancel
  · rintro rfl; rfl

theorem base_eq_addCoords (a v : HexCoord) : (a = addCoords a v) ↔ v = (⟨0, 0⟩ : HexCoord) := by
  cases a; cases v
  simp only [addCoords, HexCoord.mk.injEq]
  omega

theorem addCoords_eq_base (a v : HexCoord) : (addCoords a v = a) ↔ v = (⟨0, 0⟩ : HexCoord) := by
  cases a; cases v
  simp only [addCoords, HexCoord.mk.injEq]
  omega

theorem coordsEqual_add_add_ne (a : HexCoord) {u v : HexCoord} (h : u ≠ v) :
    coordsEqual (addCoords a u) (addCoords a v) = false := by
  rw [coordsEqual_add_add]
  exact decide_eq_false h

theorem coordsEqual_base_add_ne (a : HexCoord) {v : HexCoord} (h : v ≠ (⟨0, 0⟩ : HexCoord)) :
    coordsEqual a (addCoords a v) = false := by
  rw [coordsEqual_base_add]
  exact decide_eq_false h

theorem coordsEqual_add_base_ne (a : HexCoord) {v : HexCoord} (h : v ≠ (⟨0, 0⟩ : HexCoord)) :
    coordsEqual (addCoords a v) a = false := by
  rw [coordsEqual_add_base]
  exact decide_eq_false h

theorem coordsEqual_add_add_self (a u : HexCoord) :
    coordsEqual (addCoords a u) (addCoords a u) = true := coordsEqual_refl _

theorem coordsEqual_base_add_zero (a : HexCoord) :
    coordsEqual a (addCoords a ⟨0, 0⟩) = true := by
  rw [addCoords_zero]; exact coordsEqual_refl a

theorem coordsEqual_add_base_zero (a : HexCoord) :
    coordsEqual (addCoords a ⟨0, 0⟩) a = true := by
  rw [addCoords_zero]; exact coordsEqual_refl a

theorem addCoords_solve {d1 w d2 : HexCoord} (h : addCoords d1 w = d2) :
    w = ⟨d2.q - d1.q, d2.r - d1.r⟩ := by
  cases d1; cases w; cases d2
  simp only [addCoords, HexCoord.mk.injEq] at h ⊢
  omega

/-- C3 (amended to a board consisting of exactly the triplet): for every board
made of exactly three mutually adjacent tiles of equal value whose progression
successor exists (hnext), resolveAllMerges terminates (any fuel bound of at
least two passes suffices) having removed the three tiles and created exactly
one tile of the next progression value at the rounded centroid of the three
consumed positions, with a total score increase of value * 3. -/
theorem resolveAllMerges_exact_triplet (t1 t2 t3 : Tile) (d1 d2 w : HexCoord) (nv : ℕ)
    (hd1 : d1 ∈ DIRECTION_VECTORS) (hd2 : d2 ∈ DIRECTION_VECTORS) (hw : w ∈ DIRECTION_VECTORS)
    (hp2 : t2.position = addCoords t1.position d1)
    (hp3 : t3.position = addCoords t1.position d2)
    (hp32 : t3.position = addCoords t2.position w)
    (hv2 : t2.value = t1.value) (hv3 : t3.value = t1.value)
    (hnext : getNextValue t1.value = some nv)
    (hid12 : t1.id ≠ t2.id) (hid13 : t1.id ≠ t3.id) (hid23 : t2.id ≠ t3.id)
    (fuel : ℕ) :
    resolveAllMerges (fuel + 2) [t1, t2, t3] 0 =
      some ([⟨freshId [t1, t2, t3], nv,
             roundCentroid t1.position t2.position t3.position, false, true⟩],
            t1.value * 3) := by
  have hw2 : addCoords d1 w = d2 := by
    apply addCoords_left_cancel (a := t1.position)
    rw [← addCoords_assoc, ← hp2, ← hp32, hp3]
  have e12 : (t1.id == t2.id) = false := beq_eq_false_iff_ne.mpr hid12
  have e21 : (t2.id == t1.id) = false := beq_eq_false_iff_ne.mpr (Ne.symm hid12)
  have e13 : (t1.id == t3.id) = false := beq_eq_false_iff_ne.mpr hid13
  have e31 : (t3.id == t1.id) = false := beq_eq_false_iff_ne.mpr (Ne.symm hid13)
  have e23 : (t2.id == t3.id) = false := beq_eq_false_iff_ne.mpr hid23
  have e32 : (t3.id == t2.id) = false := beq_eq_false_iff_ne.mpr (Ne.symm hid23)
  simp only [DIRECTION_VECTORS, List.mem_cons, List.not_mem_nil, or_false] at hd1 hd2
  rcases hd1 with rfl | rfl | rfl | rfl | rfl | rfl <;>
    rcases hd2 with rfl | rfl | rfl | rfl | rfl | rfl <;>
    (rw [addCoords_solve hw2] at hw;
     simp only [DIRECTION_VECTORS, List.mem_cons, List.not_mem_nil, HexCoord.mk.injEq,
       Int.reduceNeg, Int.reduceSub, Int.reduceEq, false_and, and_false, true_and, and_true,
       false_or, or_false, true_or, or_true, and_self, or_self] at hw) <;>
    (simp only [resolveAllMerges, mergePassStep, findAllTriplets, findAllTripletsGo,
      findTripletsAt,
      getTileAtCoord, getNeighbors, List.find?, List.filterMap, List.filter, List.map,
      List.foldl, List.any, firstAdjPair, mergeTriplet, DIRECTION_VECTORS, hp2, hp3, hv2, hv3,
      hnext, e12, e21, e13, e31, e23, e32, beq_self_eq_true,
      coordsEqual_refl, coordsEqual_add_add_ne, coordsEqual_base_add_ne, coordsEqual_add_base_ne,
      coordsEqual_add_add_self, coordsEqual_base_add_zero, coordsEqual_add_base_zero,
      addCoords_assoc, addCoords_mk, addCoords_right_inj, base_eq_addCoords, addCoords_eq_base,
      List.mem_cons, List.mem_append, List.not_mem_nil,
      Int.reduceAdd, Int.reduceNeg, Int.reduceEq, Nat.reduceAdd, Nat.reduceLT,
      ne_eq, HexCoord.mk.injEq, false_and, and_false, true_and, and_true, and_self,
      not_false_eq_true, not_true, or_false, false_or, or_true, true_or,
      Bool.false_or, Bool.true_or, Bool.or_false, Bool.or_true, Bool.or_self,
      if_true, if_false, reduceIte, List.length_nil, List.length_cons, beq_iff_eq,
      List.isEmpty_nil, List.isEmpty_cons, decide_False, decide_True, Nat.zero_add, Nat.add_zero,
      eq_self_iff_true, Bool.false_eq_true, Bool.true_eq_false,
      Nat.reduceEqDiff, List.nil_append, List.append_nil, List.cons_append,
      List.singleton_append]) <;>
    (congr 3;
     simp only [roundCentroid, addCoords];
     congr 1 <;> ring)

/-- Two independent mutually adjacent triplets of value 2: one at
(0,0),(0,1),(1,0) and one at (-1,0),(-2,0),(-2,1). -/
def twoTripletBoard : List Tile :=
  [⟨1, 2, ⟨0, 0⟩, false, false⟩, ⟨2, 2, ⟨0, 1⟩, false, false⟩, ⟨3, 2, ⟨1, 0⟩, false, false⟩,
   ⟨4, 2, ⟨-1, 0⟩, false, false⟩, ⟨5, 2, ⟨-2, 0⟩, false, false⟩, ⟨6, 2, ⟨-2, 1⟩, false, false⟩]

/-- C3 counterexample to the claim as stated ("for every board containing three
mutually adjacent tiles of equal non-terminal value V ... score increase of
exactly 3*V"): this board contains a mutually adjacent non-terminal triplet of
value 2, yet resolveAllMerges accumulates score 12 (not 3*2 = 6) and produces
two new tiles (not one), because the board contains a second triplet. -/
theorem resolveAllMerges_score_exceeds_3V :
    ((⟨0, 1⟩ : HexCoord) ∈ getNeighbors ⟨0, 0⟩ ∧ (⟨1, 0⟩ : HexCoord) ∈ getNeighbors ⟨0, 0⟩ ∧
     (⟨1, 0⟩ : HexCoord) ∈ getNeighbors ⟨0, 1⟩) ∧
    getNextValue 2 = some 6 ∧
    resolveAllMerges 2 twoTripletBoard 0 =
      some ([⟨7, 6, ⟨0, 0⟩, false, true⟩, ⟨8, 6, ⟨-2, 0⟩, false, true⟩], 12) ∧
    12 ≠ 3 * 2 := by
  decide

/-- Witness for the amended C3 at a concrete input: the value-2 triplet board
resolves in two passes to one value-6 tile at the centroid (0,0) with score 6. -/
theorem resolveAllMerges_exact_triplet_witness :
    getNextValue 2 = some 6 ∧
    resolveAllMerges 2 tripletBoard 0 = some ([⟨4, 6, ⟨0, 0⟩, false, true⟩], 6) := by
  constructor
  · decide
  · exact resolveAllMerges_exact_triplet
      ⟨1, 2, ⟨0, 0⟩, false, false⟩ ⟨2, 2, ⟨0, 1⟩, false, false⟩ ⟨3, 2, ⟨1, 0⟩, false, false⟩
      ⟨0, 1⟩ ⟨1, 0⟩ ⟨1, -1⟩ 6
      (by decide) (by decide) (by decide) (by decide) (by decide) (by decide)
      (by decide) (by decide) (by decide) (by decide) (by decide) (by decide) 0

/-! ## Claim C8: invariants of all reachable states -/

theorem foldl_max_le_init (l : List Tile) : ∀ a : ℕ, a ≤ l.foldl (fun m t => max m t.id) a := by
  induction l with
  | nil => intro a; simp
  | cons u rest ih =>
    intro a
    rw [List.foldl_cons]
    exact le_trans (le_max_left a u.id) (ih _)

theorem id_le_foldl_max (l : List Tile) :
    ∀ a : ℕ, ∀ t ∈ l, t.id ≤ l.foldl (fun m t => max m t.id) a := by
  induction l with
  | nil => intro a t ht; simp at ht
  | cons u rest ih =>
    intro a t ht
    rcases List.mem_cons.mp ht with rfl | ht2
    · rw [List.foldl_cons]
      exact le_trans (le_max_right a t.id) (foldl_max_le_init rest _)
    · rw [List.foldl_cons]
      exact ih _ t ht2

theorem id_lt_freshId {g : List Tile} {t : Tile} (h : t ∈ g) : t.id < freshId g :=
  Nat.lt_succ_of_le (id_le_foldl_max g 0 t h)

/-- The internal invariant carried through every operation: tile positions are
pairwise distinct and on the grid, and tile ids are pairwise distinct. -/
def InvFull (g : List Tile) : Prop :=
  (g.map Tile.position).Nodup ∧ (∀ t ∈ g, t.position ∈ getAllGridCoords) ∧
  (g.map Tile.id).Nodup

theorem grid_coords_valid : ∀ c ∈ getAllGridCoords, isValidCoord c = true := by decide

theorem tile_id_injective {grid : List Tile} (h : (grid.map Tile.id).Nodup)
    {a b : Tile} (ha : a ∈ grid) (hb : b ∈ grid) (hab : a.id = b.id) : a = b :=
  List.inj_on_of_nodup_map h ha hb hab

theorem nodup_snoc {α : Type u} {l : List α} {a : α} (h : l.Nodup) (ha : a ∉ l) :
    (l ++ [a]).Nodup := by
  refine List.Perm.nodup ?_ (List.nodup_cons.mpr ⟨ha, h⟩)
  exact (List.perm_append_singleton a l).symm

theorem emptyCoords_spec {g : List Tile} {c : HexCoord} (h : c ∈ emptyCoords g) :
    c ∈ getAllGridCoords ∧ ∀ t ∈ g, t.position ≠ c := by
  rw [emptyCoords, List.mem_filter] at h
  obtain ⟨h1, h2⟩ := h
  refine ⟨h1, fun t ht he => ?_⟩
  have h3 := of_decide_eq_true h2
  exact h3 (List.any_eq_true.mpr ⟨t, ht, coordsEqual_iff.mpr he⟩)

theorem addRandomTile_inv {g : List Tile} (h : InvFull g) (pick : ℕ) (low : Bool) :
    InvFull (addRandomTile pick low g) := by
  obtain ⟨hpos, hmem, hid⟩ := h
  rw [addRandomTile]
  split
  · exact ⟨hpos, hmem, hid⟩
  · rename_i hne
    have hcm : (emptyCoords g).get
        ⟨pick % (emptyCoords g).length, Nat.mod_lt _ (Nat.pos_of_ne_zero hne)⟩ ∈
        emptyCoords g := List.get_mem _ _ _
    obtain ⟨hcg, hfree⟩ := emptyCoords_spec hcm
    refine ⟨?_, ?_, ?_⟩
    · rw [List.map_append]
      refine nodup_snoc hpos ?_
      intro hmem2
      obtain ⟨t, ht, he⟩ := List.mem_map.mp hmem2
      exact hfree t ht he
    · intro t ht
      rcases List.mem_append.mp ht with h1 | h1
      · exact hmem t h1
      · rw [List.mem_singleton.mp h1]
        exact hcg
    · rw [List.map_append]
      refine nodup_snoc hid ?_
      intro hmem2
      obtain ⟨t, ht, he⟩ := List.mem_map.mp hmem2
      exact Nat.lt_irrefl _ (he ▸ id_lt_freshId ht)

theorem foldl_addRandomTile_inv (pick : ℕ → ℕ) (low : ℕ → Bool) :
    ∀ (l : List ℕ) (g : List Tile), InvFull g →
      InvFull (l.foldl (fun g i => addRandomTile (pick i) (low i) g) g) := by
  intro l
  induction l with
  | nil => intro g hg; exact hg
  | cons i rest ih =>
    intro g hg
    exact ih _ (addRandomTile_inv hg (pick i) (low i))

theorem initializeGameState_inv (pick : ℕ → ℕ) (low : ℕ → Bool) :
    InvFull (initializeGameState pick low).grid := by
  have h := foldl_addRandomTile_inv pick low (List.range 5) []
    ⟨List.nodup_nil, by intro t ht; simp at ht, List.nodup_nil⟩
  simp only [initializeGameState]
  exact h

theorem allLines_facts : ∀ d : Direction, ∀ line ∈ getAllLines d,
    line.Nodup ∧ ∀ c ∈ line, c ∈ getAllGridCoords := by decide

theorem getTileAtCoord_self {grid : List Tile} (hNodup : (grid.map Tile.position).Nodup)
    {t : Tile} (ht : t ∈ grid) : getTileAtCoord grid t.position = some t := by
  induction grid with
  | nil => simp at ht
  | cons u rest ih =>
    rw [List.map_cons, List.nodup_cons] at hNodup
    rcases List.mem_cons.mp ht with rfl | ht2
    · rw [getTileAtCoord]
      simp only [List.find?, coordsEqual_refl]
    · have hne : coordsEqual u.position t.position = false := by
        rw [Bool.eq_false_iff]
        intro he
        exact hNodup.1 (coordsEqual_iff.mp he ▸ List.mem_map_of_mem Tile.position ht2)
      rw [getTileAtCoord]
      simp only [List.find?, hne]
      exact ih hNodup.2 ht2

theorem filterMap_getTile_sublist (grid : List Tile) :
    ∀ line : List HexCoord,
      ((line.filterMap (fun c => getTileAtCoord grid c)).map Tile.position).Sublist line := by
  intro line
  induction line with
  | nil => simp
  | cons c cs ih =>
    rw [List.filterMap_cons]
    cases hg : getTileAtCoord grid c with
    | none => exact ih.cons c
    | some t =>
      rw [List.map_cons, getTileAtCoord_position hg]
      exact ih.cons₂ c

theorem zip_fst_sublist {α β : Type u} :
    ∀ (l1 : List α) (l2 : List β), ((l1.zip l2).map Prod.fst).Sublist l1 := by
  intro l1
  induction l1 with
  | nil => intro l2; simp
  | cons a as ih =>
    intro l2
    cases l2 with
    | nil => simp
    | cons b bs => simpa using (ih bs).cons₂ a

theorem mem_tilesInLine {grid : List Tile} {line : List HexCoord} {t : Tile}
    (h : t ∈ line.filterMap (fun c => getTileAtCoord grid c)) :
    t ∈ grid ∧ t.position ∈ line := by
  rw [List.mem_filterMap] at h
  obtain ⟨c, hc, hg⟩ := h
  exact ⟨getTileAtCoord_mem hg, by rw [getTileAtCoord_position hg]; exact hc⟩

theorem zip_snd_sublist {α β : Type u} :
    ∀ (l1 : List α) (l2 : List β), ((l1.zip l2).map Prod.snd).Sublist l2 := by
  intro l1
  induction l1 with
  | nil => intro l2; simp
  | cons a as ih =>
    intro l2
    cases l2 with
    | nil => simp
    | cons b bs => simpa using (ih bs).cons₂ b

theorem slideLine_inv (p : List Tile × Bool) (line : List HexCoord)
    (hg : InvFull p.1) (hlND : line.Nodup) (hlmem : ∀ c ∈ line, c ∈ getAllGridCoords) :
    InvFull (slideLine p line).1 := by
  obtain ⟨hpos, hmem, hid⟩ := hg
  simp only [slideLine]
  by_cases hE : (line.filterMap (fun c => getTileAtCoord p.1 c)).isEmpty = true
  · rw [if_pos hE]
    exact ⟨hpos, hmem, hid⟩
  · rw [if_neg hE]
    set til := line.filterMap (fun c => getTileAtCoord p.1 c) with htil
    set rem := p.1.filter (fun t => ¬ til.any (fun lt => lt.id == t.id)) with hrem
    set placed := (line.zip til).map
      (fun q => (⟨q.2.id, q.2.value, q.1, q.2.isNew, q.2.isMerged⟩ : Tile)) with hplaced
    have f1 : placed.map Tile.position = (line.zip til).map Prod.fst := by
      rw [hplaced, List.map_map]
      rfl
    have f2 : placed.map Tile.id = ((line.zip til).map Prod.snd).map Tile.id := by
      rw [hplaced, List.map_map, List.map_map]
      rfl
    have f3 : rem.Sublist p.1 := hrem ▸ List.filter_sublist p.1
    have ftilpos : (til.map Tile.position).Sublist line := htil ▸ filterMap_getTile_sublist p.1 line
    have f4 : (rem.map Tile.position).Nodup := (f3.map Tile.position).nodup hpos
    have f5 : (placed.map Tile.position).Nodup := by
      rw [f1]
      exact (zip_fst_sublist line til).nodup hlND
    have fmem_rem : ∀ t ∈ rem, t ∈ p.1 := fun t ht => f3.subset ht
    have fpred : ∀ t ∈ rem, ¬ (til.any (fun lt => lt.id == t.id) = true) := by
      intro t ht
      have h1 := (List.mem_filter.mp (hrem ▸ ht)).2
      exact of_decide_eq_true h1
    have f7 : ∀ t ∈ rem, t.position ∉ line := by
      intro t ht hcl
      have htm := fmem_rem t ht
      have htil2 : t ∈ til := by
        rw [htil, List.mem_filterMap]
        exact ⟨t.position, hcl, getTileAtCoord_self hpos htm⟩
      exact fpred t ht (List.any_eq_true.mpr ⟨t, htil2, beq_self_eq_true t.id⟩)
    have f9 : ((rem ++ placed).map Tile.position).Nodup := by
      rw [List.map_append]
      refine List.Nodup.append f4 f5 ?_
      intro x hx1 hx2
      obtain ⟨t, ht, rfl⟩ := List.mem_map.mp hx1
      rw [f1] at hx2
      exact f7 t ht ((zip_fst_sublist line til).subset hx2)
    have f10 : ∀ t ∈ rem ++ placed, t.position ∈ getAllGridCoords := by
      intro t ht
      rcases List.mem_append.mp ht with h1 | h1
      · exact hmem t (fmem_rem t h1)
      · rw [hplaced, List.mem_map] at h1
        obtain ⟨q, hq, rfl⟩ := h1
        exact hlmem q.1 (List.of_mem_zip hq).1
    have ftilmem : ∀ t ∈ til, t ∈ p.1 := by
      intro t ht
      exact (mem_tilesInLine (htil ▸ ht)).1
    have ftilND : til.Nodup := (ftilpos.nodup hlND).of_map Tile.position
    have f11 : (placed.map Tile.id).Nodup := by
      rw [f2]
      refine List.Nodup.map_on ?_ ((zip_snd_sublist line til).nodup ftilND)
      intro a ha b hb hab
      exact tile_id_injective hid (ftilmem a ((zip_snd_sublist line til).subset ha))
        (ftilmem b ((zip_snd_sublist line til).subset hb)) hab
    have f12 : ((rem ++ placed).map Tile.id).Nodup := by
      rw [List.map_append]
      refine List.Nodup.append ((f3.map Tile.id).nodup hid) f11 ?_
      intro x hx1 hx2
      obtain ⟨t, ht, rfl⟩ := List.mem_map.mp hx1
      rw [f2] at hx2
      obtain ⟨u, hu, he⟩ := List.mem_map.mp hx2
      have hu2 : u ∈ til := (zip_snd_sublist line til).subset hu
      exact fpred t ht (List.any_eq_true.mpr ⟨u, hu2, beq_iff_eq.mpr he⟩)
    exact ⟨f9, f10, f12⟩

theorem resetFlags_inv {g : List Tile} (hg : InvFull g) : InvFull (resetFlags g) := by
  obtain ⟨h1, h2, h3⟩ := hg
  refine ⟨?_, ?_, ?_⟩
  · have he : (resetFlags g).map Tile.position = g.map Tile.position := by
      rw [resetFlags, List.map_map]
      rfl
    rw [he]
    exact h1
  · intro t ht
    rw [resetFlags, List.mem_map] at ht
    obtain ⟨u, hu, rfl⟩ := ht
    exact h2 u hu
  · have he : (resetFlags g).map Tile.id = g.map Tile.id := by
      rw [resetFlags, List.map_map]
      rfl
    rw [he]
    exact h3

theorem foldl_slideLine_inv :
    ∀ (ls : List (List HexCoord)) (p : List Tile × Bool),
      InvFull p.1 → (∀ line ∈ ls, line.Nodup ∧ ∀ c ∈ line, c ∈ getAllGridCoords) →
      InvFull (ls.foldl slideLine p).1 := by
  intro ls
  induction ls with
  | nil => intro p hp _; exact hp
  | cons l rest ih =>
    intro p hp hfacts
    rw [List.foldl_cons]
    refine ih _ (slideLine_inv p l hp (hfacts l (List.mem_cons_self _ _)).1
      (hfacts l (List.mem_cons_self _ _)).2) ?_
    intro line hl
    exact hfacts line (List.mem_cons_of_mem _ hl)

theorem slideBoard_inv {g : List Tile} (hg : InvFull g) (d : Direction) :
    InvFull (slideBoard g d).1 := by
  rw [slideBoard]
  exact foldl_slideLine_inv (getAllLines d) (resetFlags g, false) (resetFlags_inv hg)
    (allLines_facts d)

theorem findAllTripletsGo_sound (grid : List Tile) :
    ∀ (ts : List Tile) (checked : List HexCoord) (T : List Tile),
      T ∈ findAllTripletsGo grid ts checked → ∃ c, findTripletsAt grid c = T := by
  intro ts
  induction ts with
  | nil => intro checked T h; simp [findAllTripletsGo] at h
  | cons t rest ih =>
    intro checked T h
    simp only [findAllTripletsGo] at h
    by_cases hc : t.position ∈ checked
    · rw [if_pos hc] at h
      exact ih _ _ h
    · rw [if_neg hc] at h
      by_cases h3 : (findTripletsAt grid t.position).length = 3
      · rw [if_pos h3] at h
        rcases List.mem_cons.mp h with rfl | hmem
        · exact ⟨t.position, rfl⟩
        · exact ih _ _ hmem
      · rw [if_neg h3] at h
        exact ih _ _ h

theorem findAllTriplets_sound {grid : List Tile} {T : List Tile}
    (h : T ∈ findAllTriplets grid) : ∃ c, findTripletsAt grid c = T :=
  findAllTripletsGo_sound grid grid [] T h

theorem mergePassStep_inv {g0 : List Tile} (hg0 : InvFull g0) {T : List Tile}
    (hT : ∃ c, findTripletsAt g0 c = T) (p : List Tile × ℕ)
    (hInv : InvFull p.1) (hcar : ∀ t ∈ p.1, t ∈ g0 ∨ freshId g0 ≤ t.id)
    (hfr : freshId g0 ≤ freshId p.1) :
    InvFull (mergePassStep p T).1 ∧
    (∀ t ∈ (mergePassStep p T).1, t ∈ g0 ∨ freshId g0 ≤ t.id) ∧
    freshId g0 ≤ freshId (mergePassStep p T).1 := by
  rw [mergePassStep]
  by_cases hAM : T.any (fun t => ¬ p.1.any (fun nt => nt.id == t.id)) = true
  · rw [if_pos hAM]
    exact ⟨hInv, hcar, hfr⟩
  · rw [if_neg hAM]
    have hpres : ∀ t ∈ T, ∃ nt ∈ p.1, nt.id = t.id := by
      intro t ht
      by_contra hno
      apply hAM
      rw [List.any_eq_true]
      refine ⟨t, ht, decide_eq_true ?_⟩
      intro hany
      rw [List.any_eq_true] at hany
      obtain ⟨nt, hnt, he⟩ := hany
      exact hno ⟨nt, hnt, beq_iff_eq.mp he⟩
    rcases T with _ | ⟨x1, _ | ⟨x2, _ | ⟨x3, _ | ⟨x4, rest⟩⟩⟩⟩
    · simp only [mergeTriplet]
      exact ⟨hInv, hcar, hfr⟩
    · simp only [mergeTriplet]
      exact ⟨hInv, hcar, hfr⟩
    · simp only [mergeTriplet]
      exact ⟨hInv, hcar, hfr⟩
    · -- the real triplet case
      obtain ⟨c, hc⟩ := hT
      obtain ⟨hx1g0, hx2g0, hx3g0, -, -, -, -, -, -⟩ := findTripletsAt_shape hc
      have hcent := roundCentroid_cases_of_findTripletsAt hc
      have hmemp : ∀ x : Tile, x ∈ g0 → x ∈ ([x1, x2, x3] : List Tile) → x ∈ p.1 := by
        intro x hxg0 hxT
        obtain ⟨nt, hnt, he⟩ := hpres x hxT
        rcases hcar nt hnt with hg | hge
        · exact (tile_id_injective hg0.2.2 hg hxg0 he) ▸ hnt
        · exact absurd (he ▸ hge) (Nat.not_le.mpr (id_lt_freshId hxg0))
      have hx1p : x1 ∈ p.1 := hmemp x1 hx1g0 (by simp)
      have hx2p : x2 ∈ p.1 := hmemp x2 hx2g0 (by simp)
      have hx3p : x3 ∈ p.1 := hmemp x3 hx3g0 (by simp)
      obtain ⟨hposND, hposmem, hidND⟩ := hInv
      simp only [mergeTriplet]
      cases hnv : getNextValue x1.value with
      | none => exact ⟨⟨hposND, hposmem, hidND⟩, hcar, hfr⟩
      | some nv =>
        have hsub : (p.1.filter
            (fun tile => ¬ [x1, x2, x3].any (fun t => t.id == tile.id))).Sublist p.1 :=
          List.filter_sublist p.1
        have hfree : ∀ t ∈ p.1.filter
            (fun tile => ¬ [x1, x2, x3].any (fun t => t.id == tile.id)),
            t.position ≠ roundCentroid x1.position x2.position x3.position := by
          intro t ht hpe
          obtain ⟨htp, htpred⟩ := List.mem_filter.mp ht
          have hpred2 := of_decide_eq_true htpred
          rcases hcent with he | he | he
        -- in each case centroid = x_k.position, so t = x_k by position injectivity
          · exact hpred2 (List.any_eq_true.mpr ⟨x1, by simp,
              beq_iff_eq.mpr (congrArg Tile.id
                (tile_pos_injective hposND hx1p htp (he ▸ hpe).symm))⟩)
          · exact hpred2 (List.any_eq_true.mpr ⟨x2, by simp,
              beq_iff_eq.mpr (congrArg Tile.id
                (tile_pos_injective hposND hx2p htp (he ▸ hpe).symm))⟩)
          · exact hpred2 (List.any_eq_true.mpr ⟨x3, by simp,
              beq_iff_eq.mpr (congrArg Tile.id
                (tile_pos_injective hposND hx3p htp (he ▸ hpe).symm))⟩)
        refine ⟨⟨?_, ?_, ?_⟩, ?_, ?_⟩
        · rw [List.map_append]
          refine nodup_snoc ((hsub.map Tile.position).nodup hposND) ?_
          intro hmem2
          obtain ⟨t, ht, he⟩ := List.mem_map.mp hmem2
          exact hfree t ht he
        · intro t ht
          rcases List.mem_append.mp ht with h1 | h1
          · exact hposmem t (hsub.subset h1)
          · rw [List.mem_singleton.mp h1]
            rcases hcent with he | he | he <;> rw [he]
            · exact hposmem x1 hx1p
            · exact hposmem x2 hx2p
            · exact hposmem x3 hx3p
        · rw [List.map_append]
          refine nodup_snoc ((hsub.map Tile.id).nodup hidND) ?_
          intro hmem2
          obtain ⟨t, ht, he⟩ := List.mem_map.mp hmem2
          exact Nat.lt_irrefl _ (he ▸ id_lt_freshId (hsub.subset ht))
        · intro t ht
          rcases List.mem_append.mp ht with h1 | h1
          · exact hcar t (hsub.subset h1)
          · rw [List.mem_singleton.mp h1]
            exact Or.inr hfr
        · have hnew : (⟨freshId p.1, nv,
              roundCentroid x1.position x2.position x3.position, false, true⟩ : Tile) ∈
              p.1.filter (fun tile => ¬ [x1, x2, x3].any (fun t => t.id == tile.id)) ++
                [⟨freshId p.1, nv,
                  roundCentroid x1.position x2.position x3.position, false, true⟩] := by
            simp
          have h2 := id_lt_freshId hnew
          exact le_trans hfr (Nat.le_of_lt h2)
    · simp only [mergeTriplet]
      exact ⟨hInv, hcar, hfr⟩

theorem foldl_mergePassStep_inv {g0 : List Tile} (hg0 : InvFull g0) :
    ∀ (ts : List (List Tile)), (∀ T ∈ ts, ∃ c, findTripletsAt g0 c = T) →
      ∀ (p : List Tile × ℕ),
        InvFull p.1 → (∀ t ∈ p.1, t ∈ g0 ∨ freshId g0 ≤ t.id) →
        freshId g0 ≤ freshId p.1 →
        InvFull ((ts.foldl mergePassStep p).1) := by
  intro ts
  induction ts with
  | nil => intro _ p h _ _; exact h
  | cons T rest ih =>
    intro hts p h1 h2 h3
    rw [List.foldl_cons]
    obtain ⟨q1, q2, q3⟩ := mergePassStep_inv hg0 (hts T (List.mem_cons_self _ _)) p h1 h2 h3
    exact ih (fun T2 hT2 => hts T2 (List.mem_cons_of_mem _ hT2)) _ q1 q2 q3

theorem resolveAllMerges_inv :
    ∀ (fuel : ℕ) (g : List Tile) (acc : ℕ) (g2 : List Tile) (sc : ℕ),
      InvFull g → resolveAllMerges fuel g acc = some (g2, sc) → InvFull g2 := by
  intro fuel
  induction fuel with
  | zero =>
    intro g acc g2 sc hg h
    simp [resolveAllMerges] at h
  | succ n ih =>
    intro g acc g2 sc hg h
    simp only [resolveAllMerges] at h
    by_cases hE : (findAllTriplets g).isEmpty = true
    · rw [if_pos hE] at h
      injection h with h
      obtain ⟨rfl, rfl⟩ : g = g2 ∧ acc = sc := ⟨congrArg Prod.fst h, congrArg Prod.snd h⟩
      exact hg
    · rw [if_neg hE] at h
      have hstep := foldl_mergePassStep_inv hg (findAllTriplets g)
        (fun T hT => findAllTriplets_sound hT) (g, 0) hg
        (fun t ht => Or.inl ht) (le_refl _)
      exact ih _ _ _ _ hstep h

/-- The state-level invariant: the live grid and every history snapshot
satisfy the board invariant. -/
def StateInv (s : GameState) : Prop :=
  InvFull s.grid ∧ ∀ e ∈ s.history, InvFull e.grid

theorem moveInDirection_state_inv {s s1 : GameState} (hs : StateInv s)
    (fuel pick : ℕ) (low : Bool) (d : Direction)
    (hm : moveInDirection fuel pick low s d = some s1) : StateInv s1 := by
  obtain ⟨hg, hh⟩ := hs
  simp only [moveInDirection] at hm
  by_cases hmoved : (slideBoard s.grid d).2 = false
  · rw [if_pos hmoved] at hm
    injection hm with hm
    exact hm ▸ ⟨hg, hh⟩
  · rw [if_neg hmoved] at hm
    cases hr : resolveAllMerges fuel (slideBoard s.grid d).1 0 with
    | none => rw [hr] at hm; simp at hm
    | some pr =>
      obtain ⟨mg, inc⟩ := pr
      rw [hr] at hm
      simp only [Option.some.injEq] at hm
      have hmg : InvFull mg := resolveAllMerges_inv fuel _ 0 mg inc (slideBoard_inv hg d) hr
      rw [← hm]
      refine ⟨addRandomTile_inv hmg pick low, ?_⟩
      intro e he
      rcases List.mem_append.mp he with h1 | h1
      · exact hh e h1
      · rw [List.mem_singleton.mp h1]
        exact hg

theorem undoMove_state_inv {s : GameState} (hs : StateInv s) : StateInv (undoMove s) := by
  obtain ⟨hg, hh⟩ := hs
  rw [undoMove]
  split
  · exact ⟨hg, hh⟩
  · cases hl : s.history.getLast? with
    | none => exact ⟨hg, hh⟩
    | some last =>
      refine ⟨hh last (List.mem_of_mem_getLast? hl), ?_⟩
      intro e he
      exact hh e ((List.dropLast_sublist s.history).subset he)

theorem resetGame_state_inv (pick : ℕ → ℕ) (low : ℕ → Bool) (s : GameState) :
    StateInv (resetGame pick low s) := by
  refine ⟨?_, ?_⟩
  · have h := initializeGameState_inv pick low
    simp only [resetGame]
    exact h
  · intro e he
    simp [resetGame, initializeGameState] at he

/-- C8: every state reachable from initialization by moves, undos and resets
(under arbitrary random draws) has pairwise distinct tile positions, every
tile on a valid grid cell, and at most as many tiles as the grid has cells
(19, hence at most 37 as the claim states). -/
theorem reachable_invariant (s : GameState) (h : Reachable s) :
    (s.grid.map Tile.position).Nodup ∧
    (∀ t ∈ s.grid, isValidCoord t.position = true) ∧
    s.grid.length ≤ getAllGridCoords.length ∧ s.grid.length ≤ 37 := by
  have hs : StateInv s := by
    induction h with
    | init pick low =>
      refine ⟨initializeGameState_inv pick low, ?_⟩
      intro e he
      simp [initializeGameState] at he
    | move s s1 fuel pick low d hs hm ih => exact moveInDirection_state_inv ih fuel pick low d hm
    | undo s hs ih => exact undoMove_state_inv ih
    | reset s pick low hs ih => exact resetGame_state_inv pick low s
  obtain ⟨⟨h1, h2, h3⟩, -⟩ := hs
  have hlen : s.grid.length ≤ getAllGridCoords.length := by
    have hsubset : (s.grid.map Tile.position) ⊆ getAllGridCoords := by
      intro x hx
      obtain ⟨t, ht, rfl⟩ := List.mem_map.mp hx
      exact h2 t ht
    have := (h1.subperm hsubset).length_le
    rw [List.length_map] at this
    exact this
  refine ⟨h1, ?_, hlen, le_trans hlen (by decide)⟩
  intro t ht
  exact grid_coords_valid _ (h2 t ht)

/-- Witness for C8 at a concrete reachable state (a fresh game with fixed
random draws). -/
theorem reachable_invariant_witness :
    (((initializeGameState (fun _ => 0) (fun _ => true)).grid.map Tile.position).Nodup ∧
     (∀ t ∈ (initializeGameState (fun _ => 0) (fun _ => true)).grid,
        isValidCoord t.position = true) ∧
     (initializeGameState (fun _ => 0) (fun _ => true)).grid.length ≤
       getAllGridCoords.length ∧
     (initializeGameState (fun _ => 0) (fun _ => true)).grid.length ≤ 37) :=
  reachable_invariant _ (Reachable.init (fun _ => 0) (fun _ => true))
